import Mathlib

/-!
Verification of a Mandelbrot renderer (src/src/main.rs).

Shallow embedding conventions:
* `f64` values are embedded as exact rationals `ℚ` (real-number semantics of
  the arithmetic the program performs).
* `num::Complex<f64>` is embedded as the structure `Fractal.Complex` below,
  with the `num` crate's componentwise addition, Cartesian multiplication
  and `norm_sqr`.
* Machine integers (`u32`, `usize`, `u8`) are embedded as `ℕ`, with `% 256`
  written explicitly where the code truncates to a byte.
* Rust slices / the pixel buffer are embedded as `List ℕ`; in-place writes
  `pixels[i] = v` become `List.set`.
* The `assert_eq!` in `render` is embedded by returning `Option`: `none`
  models the panic.
* The parallel driver of `main` is embedded sequentially: the chunks are
  disjoint sub-slices, each written by exactly one task, so the final buffer
  is the sequential left-to-right composition of the per-chunk renders.
-/

namespace Fractal

/-- Embedding of `num::Complex<f64>`: a pair of (real-valued) components. -/
structure Complex where
  re : ℚ
  im : ℚ
deriving DecidableEq, Repr

/-- Componentwise addition, as in the `num` crate. -/
instance : Add Complex where
  add a b := ⟨a.re + b.re, a.im + b.im⟩

/-- Cartesian multiplication `(a+bi)(c+di) = (ac-bd) + (ad+bc)i`, as in the
`num` crate. -/
instance : Mul Complex where
  mul a b := ⟨a.re * b.re - a.im * b.im, a.re * b.im + a.im * b.re⟩

/-- `Complex::norm_sqr`: `re*re + im*im`, the squared magnitude. -/
def norm_sqr (z : Complex) : ℚ :=
  z.re * z.re + z.im * z.im

/-- The loop body of `escape_time` (`main.rs` lines 25-31): at loop index `i`
with current state `z` and `fuel` rounds remaining, update `z` to `z*z + c`,
return `some i` as soon as the squared magnitude strictly exceeds `4.0`,
otherwise continue; `none` when the rounds run out. -/
def escapeLoop (c : Complex) : Complex → ℕ → ℕ → Option ℕ
  | _, 0, _ => none
  | z, fuel + 1, i =>
    let z' := z * z + c
    if 4 < norm_sqr z' then some i else escapeLoop c z' fuel (i + 1)

/-- `escape_time` (`main.rs` lines 22-34): iterate `z = z*z + c` from
`z = 0` for at most `limit` rounds, reporting the first loop index at which
`norm_sqr z > 4.0`. -/
def escape_time (c : Complex) (limit : ℕ) : Option ℕ :=
  escapeLoop c ⟨0, 0⟩ limit 0

/-- The mathematical Mandelbrot recurrence `z₀ = 0`, `z_{n+1} = z_n² + c`,
used to state what `escape_time` computes. -/
def zIter (c : Complex) : ℕ → Complex
  | 0 => ⟨0, 0⟩
  | n + 1 => zIter c n * zIter c n + c

/-- Decimal value of a digit string, most significant digit first. -/
def digitsVal (l : List Char) : ℕ :=
  l.foldl (fun acc ch => acc * 10 + (ch.toNat - 48)) 0

/-- Modelled from the Rust standard library: `i32::from_str` on an unsigned
body — requires a nonempty all-digit string and an in-range value. -/
def parseI32Digits (t : List Char) (sign : Int) : Option Int :=
  if t ≠ [] ∧ t.all Char.isDigit then
    let v : Int := sign * (digitsVal t : Int)
    if -(2 ^ 31) ≤ v ∧ v < 2 ^ 31 then some v else none
  else none

/-- Modelled from the Rust standard library: `i32::from_str` — an optional
sign followed by one or more digits, consuming the whole string, with an
`i32` range check. -/
def parseI32 : List Char → Option Int
  | '+' :: t => parseI32Digits t 1
  | '-' :: t => parseI32Digits t (-1)
  | t => parseI32Digits t 1

/-- Modelled from the Rust standard library: the exponent part of
`f64::from_str` — an optional sign followed by one or more digits. -/
def parseExp : List Char → Option Int
  | '+' :: t => if t ≠ [] ∧ t.all Char.isDigit then some (digitsVal t : Int) else none
  | '-' :: t => if t ≠ [] ∧ t.all Char.isDigit then some (-(digitsVal t : Int)) else none
  | t => if t ≠ [] ∧ t.all Char.isDigit then some (digitsVal t : Int) else none

/-- Modelled from the Rust standard library: the mantissa of `f64::from_str`
— `Digit+`, `Digit+ '.' Digit*` or `Digit* '.' Digit+`, valued exactly as a
rational. -/
def parseMantissa (s : List Char) : Option ℚ :=
  match s.findIdx? (· == '.') with
  | none => if s ≠ [] ∧ s.all Char.isDigit then some (digitsVal s : ℚ) else none
  | some i =>
    let ipart := s.take i
    let fpart := s.drop (i + 1)
    if (ipart ≠ [] ∨ fpart ≠ []) ∧ ipart.all Char.isDigit ∧ fpart.all Char.isDigit then
      some ((digitsVal ipart : ℚ) + (digitsVal fpart : ℚ) / (10 : ℚ) ^ fpart.length)
    else none

/-- Mantissa optionally followed by `e`/`E` and an exponent. -/
def parseF64Body (s : List Char) : Option ℚ :=
  match s.findIdx? (fun ch => ch == 'e' || ch == 'E') with
  | none => parseMantissa s
  | some i =>
    match parseMantissa (s.take i), parseExp (s.drop (i + 1)) with
    | some m, some e => some (m * (10 : ℚ) ^ e)
    | _, _ => none

/-- Modelled from the Rust standard library: `f64::from_str` restricted to
finite decimal literals (the `inf`/`nan` forms fall outside the exact
rational embedding and are not used by this program's inputs of interest),
with the literal's exact rational value. -/
def parseF64 : List Char → Option ℚ
  | '+' :: t => parseF64Body t
  | '-' :: t => (parseF64Body t).map (fun q => -q)
  | t => parseF64Body t

/-- `pair_analyze` (`main.rs` lines 40-50): split the string at the first
occurrence of `separator` and parse both sides with `from_str`; any failure
yields `none`. The parser `from_str` is the embedding of `T::from_str`. -/
def pair_analyze {T : Type} (from_str : List Char → Option T)
    (s : List Char) (separator : Char) : Option (T × T) :=
  match s.findIdx? (· == separator) with
  | none => none
  | some index =>
    match from_str (s.take index), from_str (s.drop (index + 1)) with
    | some l, some r => some (l, r)
    | _, _ => none

/-- `pixel_to_complex_point` (`main.rs` lines 86-98): linear interpolation of
a pixel coordinate into the complex rectangle spanned by `super_left` and
`infer_right`. -/
def pixel_to_complex_point (edges : ℕ × ℕ) (pixel : ℕ × ℕ)
    (super_left infer_right : Complex) : Complex :=
  let width : ℚ := infer_right.re - super_left.re
  let height : ℚ := super_left.im - infer_right.im
  { re := super_left.re + ((pixel.1 : ℚ) / (edges.1 : ℚ)) * width
    im := super_left.im - ((pixel.2 : ℚ) / (edges.2 : ℚ)) * height }

/-- The byte written per pixel by `render` (`main.rs` lines 132-135):
`0` when the point never escapes, otherwise `255 - count as u8` — the cast
and the byte subtraction are embedded with explicit `% 256`. -/
def pixel_color (edges : ℕ × ℕ) (super_left infer_right : Complex)
    (column row : ℕ) : ℕ :=
  match escape_time (pixel_to_complex_point edges (column, row) super_left infer_right) 255 with
  | none => 0
  | some count => (255 - count % 256) % 256

/-- The double loop of `render` (`main.rs` lines 123-137): for each row and
column write the pixel's byte at row-major offset `row * width + column`. -/
def renderFill (pixels : List ℕ) (edges : ℕ × ℕ)
    (super_left infer_right : Complex) : List ℕ :=
  (List.range edges.2).foldl (fun buf row =>
    (List.range edges.1).foldl (fun b column =>
      b.set (row * edges.1 + column) (pixel_color edges super_left infer_right column row)) buf)
    pixels

/-- `render` (`main.rs` lines 115-138): the `assert_eq!(pixels.len(),
edges.0 * edges.1)` is embedded as the guard (`none` models the panic),
then the buffer is filled. -/
def render (pixels : List ℕ) (edges : ℕ × ℕ)
    (super_left infer_right : Complex) : Option (List ℕ) :=
  if pixels.length = edges.1 * edges.2 then
    some (renderFill pixels edges super_left infer_right)
  else none

/-- One chunk of the parallel loop in `main` (`main.rs` lines 186-208):
chunk `i` is the sub-slice of `rows_per_chunk * width` bytes starting at
byte `rows_per_chunk * width * i`; its corners are derived with
`pixel_to_complex_point` against the full extent, and it is rendered in
place (the tasks own disjoint sub-slices, so the in-place render is the
splice `take ++ rendered ++ drop`). -/
def mainChunkStep (w h cpus : ℕ) (super_left infer_right : Complex)
    (pixels : List ℕ) (i : ℕ) : List ℕ :=
  let rows_per_chunk := h / cpus + 1
  let chunk_len := rows_per_chunk * w
  let top := rows_per_chunk * i
  let chunk := (pixels.drop (chunk_len * i)).take chunk_len
  let height := chunk.length / w
  match render chunk (w, height)
      (pixel_to_complex_point (w, h) (0, top) super_left infer_right)
      (pixel_to_complex_point (w, h) (w, top + height) super_left infer_right) with
  | some rendered => pixels.take (chunk_len * i) ++ rendered ++ pixels.drop (chunk_len * (i + 1))
  | none => pixels

/-- The driver of `main` (`main.rs` lines 177-209): a buffer of
`width * height` zeros, `rows_per_chunk = height / cpus + 1`, and
`chunks_exact_mut` yielding `(w*h) / (rows_per_chunk*w)` whole chunks, each
rendered by its own task; the tasks write disjoint sub-slices, so the final
buffer is the left-to-right composition of the chunk renders. -/
def mainPixels (w h cpus : ℕ) (super_left infer_right : Complex) : List ℕ :=
  (List.range ((w * h) / ((h / cpus + 1) * w))).foldl
    (mainChunkStep w h cpus super_left infer_right)
    (List.replicate (w * h) 0)

theorem cext {z w : Complex} (h1 : z.re = w.re) (h2 : z.im = w.im) : z = w := by
  cases z
  cases w
  cases h1
  cases h2
  rfl

theorem add_re (a b : Complex) : (a + b).re = a.re + b.re := rfl

theorem add_im (a b : Complex) : (a + b).im = a.im + b.im := rfl

theorem mul_re (a b : Complex) : (a * b).re = a.re * b.re - a.im * b.im := rfl

theorem mul_im (a b : Complex) : (a * b).im = a.re * b.im + a.im * b.re := rfl

theorem zIter_zero (c : Complex) : zIter c 0 = ⟨0, 0⟩ := rfl

theorem zIter_succ (c : Complex) (n : ℕ) :
    zIter c (n + 1) = zIter c n * zIter c n + c := rfl

theorem zIter_one (c : Complex) : zIter c 1 = c := by
  apply cext
  · rw [zIter_succ, add_re, mul_re, zIter_zero]
    norm_num
  · rw [zIter_succ, add_im, mul_im, zIter_zero]
    norm_num

theorem zIter_at_origin (n : ℕ) : zIter ⟨0, 0⟩ n = ⟨0, 0⟩ := by
  induction n with
  | zero => rfl
  | succ n ih =>
    rw [zIter_succ, ih]
    apply cext
    · rw [add_re, mul_re]
      norm_num
    · rw [add_im, mul_im]
      norm_num

theorem escapeLoop_zero (c z : Complex) (i : ℕ) : escapeLoop c z 0 i = none := rfl

theorem escapeLoop_succ (c z : Complex) (fuel i : ℕ) :
    escapeLoop c z (fuel + 1) i =
      if 4 < norm_sqr (z * z + c) then some i else escapeLoop c (z * z + c) fuel (i + 1) := rfl

theorem escapeLoop_some_iff (c : Complex) :
    ∀ (fuel i n : ℕ),
      escapeLoop c (zIter c i) fuel i = some n ↔
        i ≤ n ∧ n < i + fuel ∧ 4 < norm_sqr (zIter c (n + 1)) ∧
          ∀ m, i ≤ m → m < n → norm_sqr (zIter c (m + 1)) ≤ 4 := by
  intro fuel
  induction fuel with
  | zero =>
    intro i n
    rw [escapeLoop_zero]
    constructor
    · intro hsome
      exact absurd hsome (by simp)
    · rintro ⟨h1, h2, -, -⟩
      omega
  | succ fuel ih =>
    intro i n
    rw [escapeLoop_succ, ← zIter_succ]
    by_cases h4 : 4 < norm_sqr (zIter c (i + 1))
    · rw [if_pos h4]
      constructor
      · intro hsome
        have hin : i = n := by
          have := Option.some.injEq i n ▸ hsome
          simpa using hsome
        subst hin
        exact ⟨le_refl i, by omega, h4, fun m h1 h2 => absurd (lt_of_le_of_lt h1 h2) (lt_irrefl i)⟩
      · rintro ⟨h1, h2, h3, h5⟩
        rcases Nat.eq_or_lt_of_le h1 with heq | hlt
        · rw [heq]
        · exact absurd h4 (not_lt.mpr (h5 i (le_refl i) hlt))
    · rw [if_neg h4]
      rw [ih (i + 1) n]
      constructor
      · rintro ⟨h1, h2, h3, h5⟩
        refine ⟨by omega, by omega, h3, fun m hm1 hm2 => ?_⟩
        rcases Nat.eq_or_lt_of_le hm1 with heq | hlt
        · rw [← heq]
          exact le_of_not_lt h4
        · exact h5 m hlt hm2
      · rintro ⟨h1, h2, h3, h5⟩
        have hin : i < n := by
          rcases Nat.eq_or_lt_of_le h1 with heq | hlt
          · exfalso
            apply h4
            rw [heq]
            exact h3
          · exact hlt
        exact ⟨by omega, by omega, h3, fun m hm1 hm2 => h5 m (by omega) hm2⟩

theorem escapeLoop_none_iff (c : Complex) :
    ∀ (fuel i : ℕ),
      escapeLoop c (zIter c i) fuel i = none ↔
        ∀ n, i ≤ n → n < i + fuel → norm_sqr (zIter c (n + 1)) ≤ 4 := by
  intro fuel
  induction fuel with
  | zero =>
    intro i
    rw [escapeLoop_zero]
    constructor
    · intro _ n h1 h2
      exact absurd h2 (by omega)
    · intro _
      rfl
  | succ fuel ih =>
    intro i
    rw [escapeLoop_succ, ← zIter_succ]
    by_cases h4 : 4 < norm_sqr (zIter c (i + 1))
    · rw [if_pos h4]
      constructor
      · intro hsome
        exact absurd hsome (by simp)
      · intro hall
        exact absurd (hall i (le_refl i) (by omega)) (not_le.mpr h4)
    · rw [if_neg h4, ih (i + 1)]
      constructor
      · intro hall n h1 h2
        rcases Nat.eq_or_lt_of_le h1 with heq | hlt
        · rw [← heq]
          exact le_of_not_lt h4
        · exact hall n hlt (by omega)
      · intro hall n h1 h2
        exact hall n (by omega) (by omega)

theorem escape_time_eq_loop (c : Complex) (limit : ℕ) :
    escape_time c limit = escapeLoop c (zIter c 0) limit 0 := rfl

/-- C1: for every complex point `c` and every iteration limit, `escape_time`
simulates the recurrence `z₀ = 0`, `z_{n+1} = z_n² + c` for up to `limit`
iterations; it returns `some n` exactly when `n < limit` is the first
0-indexed iteration (checked after updating `z`) at which the squared
magnitude of `z` strictly exceeds `4.0`, and returns `none` exactly when the
squared magnitude never exceeds `4.0` within `limit` iterations — in
particular it terminates (it is a total function) with an escape index below
the limit. -/
theorem escape_time_spec (c : Complex) (limit : ℕ) :
    (∀ n, escape_time c limit = some n ↔
      n < limit ∧ 4 < norm_sqr (zIter c (n + 1)) ∧
        ∀ m, m < n → norm_sqr (zIter c (m + 1)) ≤ 4) ∧
    (escape_time c limit = none ↔ ∀ n, n < limit → norm_sqr (zIter c (n + 1)) ≤ 4) := by
  constructor
  · intro n
    rw [escape_time_eq_loop, escapeLoop_some_iff]
    constructor
    · rintro ⟨-, h2, h3, h4⟩
      exact ⟨by omega, h3, fun m hm => h4 m (Nat.zero_le m) hm⟩
    · rintro ⟨h2, h3, h4⟩
      exact ⟨Nat.zero_le n, by omega, h3, fun m _ hm => h4 m hm⟩
  · rw [escape_time_eq_loop, escapeLoop_none_iff]
    constructor
    · intro hall n hn
      exact hall n (Nat.zero_le n) (by omega)
    · intro hall n _ hn
      exact hall n (by omega)

/-- C1 witness: at `c = 3 + 3i` and `limit = 1`, the characterization yields
escape at iteration 0, since `|z₁|² = |c|² = 18 > 4`. -/
theorem escape_time_spec_witness : escape_time ⟨3, 3⟩ 1 = some 0 :=
  ((escape_time_spec ⟨3, 3⟩ 1).1 0).mpr
    ⟨by decide, by with_unfolding_all decide, fun m hm => absurd hm (Nat.not_lt_zero m)⟩

/-- C10: calling `escape_time` with `limit = 0` performs no iteration and
returns `none` ("did not escape") for every complex point. -/
theorem escape_time_zero_limit (c : Complex) : escape_time c 0 = none := rfl

/-- C8 counterexample: the point `c = -2` has magnitude exactly `2`
(`norm_sqr c = 4 = 2 * 2`), so the claim's hypothesis "magnitude ≥ 2" holds
with `limit = 100 ≥ 1`, yet `escape_time` returns `none`: the orbit
`0, -2, 2, 2, …` never has squared magnitude strictly above `4.0`, so no
escape index is returned at all. -/
theorem escape_time_magnitude_two_counterexample :
    2 * 2 ≤ norm_sqr ⟨-2, 0⟩ ∧ escape_time ⟨-2, 0⟩ 100 = none :=
  ⟨by with_unfolding_all decide, by with_unfolding_all rfl⟩

/-- C8 (amended): for every `limit ≥ 1` and every complex point with
magnitude strictly greater than `2` (`norm_sqr c > 4`), `escape_time`
returns an escape index `≤ limit - 1` which is the first iteration at which
the squared magnitude exceeds `4.0`; and for the point `(0,0)`,
`escape_time` returns `none` for every limit. -/
theorem escape_time_escape_spec :
    (∀ (c : Complex) (limit : ℕ), 1 ≤ limit → 2 * 2 < norm_sqr c →
      ∃ n, escape_time c limit = some n ∧ n ≤ limit - 1 ∧
        4 < norm_sqr (zIter c (n + 1)) ∧
        ∀ m, m < n → norm_sqr (zIter c (m + 1)) ≤ 4) ∧
    ∀ limit, escape_time ⟨0, 0⟩ limit = none := by
  constructor
  · intro c limit hlim hc
    have hz1 : 4 < norm_sqr (zIter c 1) := by
      rw [zIter_one]
      calc (4 : ℚ) = 2 * 2 := by norm_num
      _ < norm_sqr c := hc
    refine ⟨0, ?_, by omega, hz1, fun m hm => absurd hm (Nat.not_lt_zero m)⟩
    exact ((escape_time_spec c limit).1 0).mpr
      ⟨by omega, hz1, fun m hm => absurd hm (Nat.not_lt_zero m)⟩
  · intro limit
    refine ((escape_time_spec ⟨0, 0⟩ limit).2).mpr ?_
    intro n _
    rw [zIter_at_origin]
    show (0 : ℚ) * 0 + 0 * 0 ≤ 4
    norm_num

/-- C8 witness: at `c = 3` (magnitude `3 > 2`) and `limit = 1`, the amended
theorem produces the escape index, and the origin stays in the set at
`limit = 5`. -/
theorem escape_time_escape_spec_witness :
    (∃ n, escape_time ⟨3, 0⟩ 1 = some n ∧ n ≤ 1 - 1 ∧
      4 < norm_sqr (zIter ⟨3, 0⟩ (n + 1)) ∧
      ∀ m, m < n → norm_sqr (zIter ⟨3, 0⟩ (m + 1)) ≤ 4) ∧
    escape_time ⟨0, 0⟩ 5 = none :=
  ⟨escape_time_escape_spec.1 ⟨3, 0⟩ 1 (by decide) (by with_unfolding_all decide),
   escape_time_escape_spec.2 5⟩

/-- C3: for positive extents, the Coordinate Mapper returns exactly the
spec's linear-interpolation formula — real part
`top-left.re + (column / width) * (bottom-right.re - top-left.re)`,
imaginary part
`top-left.im - (row / height) * (top-left.im - bottom-right.im)` — and on
the concrete instance extent `(100,100)`, pixel `(25,75)`, corners
`(-1,1)` and `(1,-1)` it returns exactly `(-1/2, -1/2)`. -/
theorem pixel_to_complex_point_formula :
    (∀ (w h col row : ℕ) (sl ir : Complex), 0 < w → 0 < h →
      pixel_to_complex_point (w, h) (col, row) sl ir =
        ⟨sl.re + ((col : ℚ) / (w : ℚ)) * (ir.re - sl.re),
         sl.im - ((row : ℚ) / (h : ℚ)) * (sl.im - ir.im)⟩) ∧
    pixel_to_complex_point (100, 100) (25, 75) ⟨-1, 1⟩ ⟨1, -1⟩ = ⟨-(1/2), -(1/2)⟩ :=
  ⟨fun _ _ _ _ _ _ _ _ => rfl, by with_unfolding_all rfl⟩

/-- C3 witness: the formula instantiated at extent `(2,2)`, pixel `(1,1)`,
corners `(0,1)` and `(1,0)`. -/
theorem pixel_to_complex_point_formula_witness :
    pixel_to_complex_point (2, 2) (1, 1) ⟨0, 1⟩ ⟨1, 0⟩ =
      ⟨(0 : ℚ) + ((1 : ℕ) : ℚ) / ((2 : ℕ) : ℚ) * ((1 : ℚ) - 0),
       (1 : ℚ) - ((1 : ℕ) : ℚ) / ((2 : ℕ) : ℚ) * ((1 : ℚ) - 0)⟩ :=
  pixel_to_complex_point_formula.1 2 2 1 1 ⟨0, 1⟩ ⟨1, 0⟩ (by decide) (by decide)

/-- C7: for positive extents and any corner points, the Coordinate Mapper
maps pixel `(0,0)` exactly to the top-left corner and pixel
`(width, height)` — one past the last valid pixel — exactly to the
bottom-right corner. -/
theorem pixel_to_complex_point_corners (w h : ℕ) (sl ir : Complex)
    (hw : 0 < w) (hh : 0 < h) :
    pixel_to_complex_point (w, h) (0, 0) sl ir = sl ∧
    pixel_to_complex_point (w, h) (w, h) sl ir = ir := by
  have hw' : (w : ℚ) ≠ 0 := Nat.cast_ne_zero.mpr (by omega)
  have hh' : (h : ℚ) ≠ 0 := Nat.cast_ne_zero.mpr (by omega)
  constructor
  · apply cext
    · show sl.re + ((0 : ℕ) : ℚ) / (w : ℚ) * (ir.re - sl.re) = sl.re
      norm_num
    · show sl.im - ((0 : ℕ) : ℚ) / (h : ℚ) * (sl.im - ir.im) = sl.im
      norm_num
  · apply cext
    · show sl.re + (w : ℚ) / (w : ℚ) * (ir.re - sl.re) = ir.re
      rw [div_self hw']
      ring
    · show sl.im - (h : ℚ) / (h : ℚ) * (sl.im - ir.im) = ir.im
      rw [div_self hh']
      ring

/-- C7 witness: corners at extent `(3,2)` with corners `(-1,1)` and
`(2,-1)`. -/
theorem pixel_to_complex_point_corners_witness :
    pixel_to_complex_point (3, 2) (0, 0) ⟨-1, 1⟩ ⟨2, -1⟩ = ⟨-1, 1⟩ ∧
    pixel_to_complex_point (3, 2) (3, 2) ⟨-1, 1⟩ ⟨2, -1⟩ = ⟨2, -1⟩ :=
  pixel_to_complex_point_corners 3 2 ⟨-1, 1⟩ ⟨2, -1⟩ (by decide) (by decide)

/-- C6: `pair_analyze` splits at the first occurrence of the separator only
(the index `findIdx?` returns), hands both substrings to the type's
full-consumption parser, and returns the pair exactly when both parses
succeed; it returns `none` when the separator is absent and when either
substring is empty or fails to parse (the empty string parses to `none` for
both numeric types). The spec's concrete cases hold: `"10,20"` at `','`
gives `(10,20)`, `"10,"`, `",10"` and `"10,20xy"` give `none` (trailing
garbage is rejected by full consumption), and `"0.5x1.5"` at `'x'` gives
`(1/2, 3/2)`. -/
theorem pair_analyze_spec :
    (∀ (T : Type) (f : List Char → Option T) (s : List Char) (sep : Char),
      s.findIdx? (· == sep) = none → pair_analyze f s sep = none) ∧
    (∀ (T : Type) (f : List Char → Option T) (s : List Char) (sep : Char) (i : ℕ),
      s.findIdx? (· == sep) = some i →
        pair_analyze f s sep =
          match f (s.take i), f (s.drop (i + 1)) with
          | some l, some r => some (l, r)
          | _, _ => none) ∧
    parseI32 [] = none ∧ parseF64 [] = none ∧
    pair_analyze parseI32 (String.toList "10,20") ',' = some (10, 20) ∧
    pair_analyze parseI32 (String.toList "10,") ',' = none ∧
    pair_analyze parseI32 (String.toList ",10") ',' = none ∧
    pair_analyze parseI32 (String.toList "10,20xy") ',' = none ∧
    pair_analyze parseF64 (String.toList "0.5x1.5") 'x' = some (1 / 2, 3 / 2) := by
  refine ⟨?_, ?_, ?_, ?_, ?_, ?_, ?_, ?_, ?_⟩
  · intro T f s sep h
    unfold pair_analyze
    rw [h]
  · intro T f s sep i h
    unfold pair_analyze
    rw [h]
  · rfl
  · rfl
  · with_unfolding_all rfl
  · with_unfolding_all rfl
  · with_unfolding_all rfl
  · with_unfolding_all rfl
  · with_unfolding_all rfl

/-- C6 witness: the separator-absent case instantiated at `"1020"` with
separator `','`. -/
theorem pair_analyze_spec_witness :
    pair_analyze parseI32 (String.toList "1020") ',' = none :=
  pair_analyze_spec.1 Int parseI32 (String.toList "1020") ',' (by with_unfolding_all rfl)

theorem getD_replicate_zero (k j : ℕ) : (List.replicate k (0 : ℕ)).getD j 0 = 0 := by
  rw [List.getD_eq_getElem?_getD, List.getElem?_replicate]
  by_cases hj : j < k
  · rw [if_pos hj]
    rfl
  · rw [if_neg hj]
    rfl

theorem foldl_set_range_length (g : ℕ → ℕ) (base : ℕ) :
    ∀ (n : ℕ) (buf : List ℕ),
      ((List.range n).foldl (fun b k => b.set (base + k) (g k)) buf).length = buf.length := by
  intro n
  induction n with
  | zero =>
    intro buf
    rfl
  | succ n ih =>
    intro buf
    rw [List.range_succ, List.foldl_append, List.foldl_cons, List.foldl_nil,
      List.length_set, ih]

theorem foldl_set_range_getD (g : ℕ → ℕ) (base : ℕ) :
    ∀ (n : ℕ) (buf : List ℕ) (j d : ℕ), base + n ≤ buf.length →
      ((List.range n).foldl (fun b k => b.set (base + k) (g k)) buf).getD j d =
        if base ≤ j ∧ j < base + n then g (j - base) else buf.getD j d := by
  intro n
  induction n with
  | zero =>
    intro buf j d _
    rw [List.range_zero, List.foldl_nil, if_neg (by omega)]
  | succ n ih =>
    intro buf j d h
    rw [List.range_succ, List.foldl_append, List.foldl_cons, List.foldl_nil]
    have hlen : ((List.range n).foldl (fun b k => b.set (base + k) (g k)) buf).length
        = buf.length := foldl_set_range_length g base n buf
    by_cases hj : j = base + n
    · subst hj
      rw [List.getD_eq_getElem?_getD, List.getElem?_set_self (by omega), Option.getD_some,
        if_pos ⟨by omega, by omega⟩, Nat.add_sub_cancel_left]
    · rw [List.getD_eq_getElem?_getD, List.getElem?_set_ne (fun hh => hj hh.symm),
        ← List.getD_eq_getElem?_getD, ih buf j d (by omega)]
      by_cases hcond : base ≤ j ∧ j < base + n
      · rw [if_pos hcond, if_pos ⟨hcond.1, by omega⟩]
      · rw [if_neg hcond, if_neg (by omega)]

theorem foldl_fill_length (color : ℕ → ℕ → ℕ) (w : ℕ) :
    ∀ (h : ℕ) (buf : List ℕ),
      ((List.range h).foldl (fun b r => (List.range w).foldl
        (fun b2 c => b2.set (r * w + c) (color c r)) b) buf).length = buf.length := by
  intro h
  induction h with
  | zero =>
    intro buf
    rfl
  | succ h ih =>
    intro buf
    rw [List.range_succ, List.foldl_append, List.foldl_cons, List.foldl_nil]
    have hinner : ∀ (X : List ℕ) (r : ℕ),
        ((List.range w).foldl (fun b2 c => b2.set (r * w + c) (color c r)) X).length
          = X.length := fun X r => foldl_set_range_length (fun c => color c r) (r * w) w X
    rw [hinner, ih]

theorem foldl_fill_getD (color : ℕ → ℕ → ℕ) (w : ℕ) :
    ∀ (h : ℕ) (buf : List ℕ) (row col d : ℕ), h * w ≤ buf.length → row < h → col < w →
      ((List.range h).foldl (fun b r => (List.range w).foldl
          (fun b2 c => b2.set (r * w + c) (color c r)) b) buf).getD (row * w + col) d =
        color col row := by
  intro h
  induction h with
  | zero =>
    intro buf row col d _ hr _
    exact absurd hr (Nat.not_lt_zero row)
  | succ h ih =>
    intro buf row col d hlen hr hc
    rw [List.range_succ, List.foldl_append, List.foldl_cons, List.foldl_nil]
    have hXlen : ((List.range h).foldl (fun b r => (List.range w).foldl
        (fun b2 c => b2.set (r * w + c) (color c r)) b) buf).length = buf.length :=
      foldl_fill_length color w h buf
    have hinner : ∀ (X : List ℕ) (j : ℕ), h * w + w ≤ X.length →
        ((List.range w).foldl (fun b2 c => b2.set (h * w + c) (color c h)) X).getD j d =
          if h * w ≤ j ∧ j < h * w + w then color (j - h * w) h else X.getD j d :=
      fun X j hX => foldl_set_range_getD (fun c => color c h) (h * w) w X j d hX
    have hsle : h * w + w ≤ buf.length := by
      have : (h + 1) * w = h * w + w := by ring
      omega
    rcases Nat.lt_or_ge row h with hrow | hrow
    · rw [hinner _ _ (by omega)]
      have hlt : row * w + col < h * w := by
        calc row * w + col < row * w + w := by omega
        _ = (row + 1) * w := by ring
        _ ≤ h * w := Nat.mul_le_mul_right w hrow
      rw [if_neg (by omega)]
      exact ih buf row col d (by omega) hrow hc
    · have hrh : row = h := by omega
      subst hrh
      rw [hinner _ _ (by omega), if_pos ⟨by omega, by omega⟩, Nat.add_sub_cancel_left]

theorem foldl_fill_getD_high (color : ℕ → ℕ → ℕ) (w : ℕ) :
    ∀ (h : ℕ) (buf : List ℕ) (j d : ℕ), h * w ≤ buf.length → h * w ≤ j →
      ((List.range h).foldl (fun b r => (List.range w).foldl
          (fun b2 c => b2.set (r * w + c) (color c r)) b) buf).getD j d =
        buf.getD j d := by
  intro h
  induction h with
  | zero =>
    intro buf j d _ _
    rfl
  | succ h ih =>
    intro buf j d hlen hj
    rw [List.range_succ, List.foldl_append, List.foldl_cons, List.foldl_nil]
    have hXlen : ((List.range h).foldl (fun b r => (List.range w).foldl
        (fun b2 c => b2.set (r * w + c) (color c r)) b) buf).length = buf.length :=
      foldl_fill_length color w h buf
    have hsucc : (h + 1) * w = h * w + w := by ring
    have hinner : ∀ (X : List ℕ), h * w + w ≤ X.length →
        ((List.range w).foldl (fun b2 c => b2.set (h * w + c) (color c h)) X).getD j d =
          if h * w ≤ j ∧ j < h * w + w then color (j - h * w) h else X.getD j d :=
      fun X hX => foldl_set_range_getD (fun c => color c h) (h * w) w X j d hX
    rw [hinner _ (by omega), if_neg (by omega)]
    exact ih buf j d (by omega) (by omega)

theorem renderFill_length (pixels : List ℕ) (w h : ℕ) (sl ir : Complex) :
    (renderFill pixels (w, h) sl ir).length = pixels.length :=
  foldl_fill_length (fun c r => pixel_color (w, h) sl ir c r) w h pixels

theorem renderFill_getD (pixels : List ℕ) (w h : ℕ) (sl ir : Complex)
    (row col d : ℕ) (hlen : h * w ≤ pixels.length) (hr : row < h) (hc : col < w) :
    (renderFill pixels (w, h) sl ir).getD (row * w + col) d =
      pixel_color (w, h) sl ir col row :=
  foldl_fill_getD (fun c r => pixel_color (w, h) sl ir c r) w h pixels row col d hlen hr hc

/-- C9: the Rectangle Renderer demands buffer length exactly
`width * height`; a violation is the fatal assertion (embedded as `none`,
the only failure mode), and under the precondition every write offset
`row * width + column` is in bounds and every buffer position is covered by
exactly such a write, so the whole buffer is filled. -/
theorem render_spec (pixels : List ℕ) (w h : ℕ) (sl ir : Complex) :
    (render pixels (w, h) sl ir = none ↔ pixels.length ≠ w * h) ∧
    (pixels.length = w * h →
      ∃ out, render pixels (w, h) sl ir = some out ∧ out.length = w * h ∧
        (∀ row col, row < h → col < w → row * w + col < w * h) ∧
        ∀ idx, idx < w * h → ∃ row col, row < h ∧ col < w ∧ idx = row * w + col ∧
          out.getD idx 0 = pixel_color (w, h) sl ir col row) := by
  constructor
  · by_cases hc : pixels.length = w * h
    · simp [render, hc]
    · simp [render, hc]
  · intro hlen
    refine ⟨renderFill pixels (w, h) sl ir, by simp [render, hlen], ?_, ?_, ?_⟩
    · rw [renderFill_length, hlen]
    · intro row col hr hc
      calc row * w + col < row * w + w := by omega
      _ = (row + 1) * w := by ring
      _ ≤ h * w := Nat.mul_le_mul_right w hr
      _ = w * h := Nat.mul_comm h w
    · intro idx hidx
      have hw : 0 < w := by
        rcases Nat.eq_zero_or_pos w with h0 | h0
        · subst h0
          omega
        · exact h0
      have hwh : w * h = h * w := Nat.mul_comm w h
      have hsplit : idx = idx / w * w + idx % w := by
        conv_lhs => rw [← Nat.div_add_mod idx w]
        rw [Nat.mul_comm]
      refine ⟨idx / w, idx % w, ?_, Nat.mod_lt idx hw, hsplit, ?_⟩
      · rw [Nat.div_lt_iff_lt_mul hw]
        omega
      · have hres := renderFill_getD pixels w h sl ir (idx / w) (idx % w) 0
          (by omega) (by rw [Nat.div_lt_iff_lt_mul hw]; omega) (Nat.mod_lt idx hw)
        rw [← hsplit] at hres
        exact hres

/-- C9 witness: a one-pixel buffer of correct length renders successfully
and fills its single position; a two-byte buffer against a `1 × 1` extent
trips the assertion. -/
theorem render_spec_witness :
    (∃ out, render [0] (1, 1) ⟨3, 3⟩ ⟨4, 2⟩ = some out ∧ out.length = 1 * 1 ∧
      (∀ row col, row < 1 → col < 1 → row * 1 + col < 1 * 1) ∧
      ∀ idx, idx < 1 * 1 → ∃ row col, row < 1 ∧ col < 1 ∧ idx = row * 1 + col ∧
        out.getD idx 0 = pixel_color (1, 1) ⟨3, 3⟩ ⟨4, 2⟩ col row) ∧
    render [0, 0] (1, 1) ⟨3, 3⟩ ⟨4, 2⟩ = none :=
  ⟨(render_spec [0] 1 1 ⟨3, 3⟩ ⟨4, 2⟩).2 (by decide),
   (render_spec [0, 0] 1 1 ⟨3, 3⟩ ⟨4, 2⟩).1.mpr (by decide)⟩

/-- C2: with the renderer's fixed limit `255` the escape index is always at
most `254` (so the byte subtraction `255 - index` never underflows), and
every pixel the renderer writes equals `255 - min(index, 255)` when the
point escapes at iteration `index` and `0` when it does not escape. -/
theorem render_intensity_spec :
    (∀ (c : Complex) (n : ℕ), escape_time c 255 = some n → n ≤ 254) ∧
    ∀ (pixels : List ℕ) (w h : ℕ) (sl ir : Complex) (out : List ℕ),
      render pixels (w, h) sl ir = some out →
      ∀ row col, row < h → col < w →
        out.getD (row * w + col) 0 =
          match escape_time (pixel_to_complex_point (w, h) (col, row) sl ir) 255 with
          | none => 0
          | some n => 255 - min n 255 := by
  have hbound : ∀ (c : Complex) (n : ℕ), escape_time c 255 = some n → n ≤ 254 := by
    intro c n hn
    have := ((escape_time_spec c 255).1 n).mp hn
    omega
  refine ⟨hbound, ?_⟩
  intro pixels w h sl ir out hout row col hr hc
  have hlen : pixels.length = w * h := by
    by_contra hne
    rw [((render_spec pixels w h sl ir).1).mpr hne] at hout
    exact absurd hout (by simp)
  have hout' : out = renderFill pixels (w, h) sl ir := by
    simp only [render] at hout
    rw [if_pos hlen] at hout
    injection hout with hh
    exact hh.symm
  rw [hout',
    renderFill_getD pixels w h sl ir row col 0 (le_of_eq (by rw [hlen, Nat.mul_comm])) hr hc]
  rcases heq : escape_time (pixel_to_complex_point (w, h) (col, row) sl ir) 255 with - | n
  · simp [pixel_color, heq]
  · have hn := hbound _ n heq
    simp only [pixel_color, heq]
    show (255 - n % 256) % 256 = 255 - min n 255
    have h1 : n % 256 = n := Nat.mod_eq_of_lt (by omega)
    have h2 : min n 255 = n := Nat.min_eq_left (by omega)
    rw [h1, h2, Nat.mod_eq_of_lt (by omega)]

/-- C2 witness: the single pixel of a `1 × 1` render of the rectangle with
corners `(3,3)` and `(4,2)` — the point escapes at iteration `0`, so the
written byte is `255 - min 0 255 = 255`. -/
theorem render_intensity_spec_witness :
    [(255 : ℕ)].getD (0 * 1 + 0) 0 =
      match escape_time (pixel_to_complex_point (1, 1) (0, 0) ⟨3, 3⟩ ⟨4, 2⟩) 255 with
      | none => 0
      | some n => 255 - min n 255 :=
  render_intensity_spec.2 [0] 1 1 ⟨3, 3⟩ ⟨4, 2⟩ [255]
    (by with_unfolding_all rfl) 0 0 (by decide) (by decide)

theorem getD_drop (l : List ℕ) (a m d : ℕ) : (l.drop a).getD m d = l.getD (a + m) d := by
  rw [List.getD_eq_getElem?_getD, List.getD_eq_getElem?_getD, List.getElem?_drop]

theorem getD_take (l : List ℕ) (a m d : ℕ) (h : m < a) :
    (l.take a).getD m d = l.getD m d := by
  rw [List.getD_eq_getElem?_getD, List.getD_eq_getElem?_getD, List.getElem?_take, if_pos h]

theorem mainChunkStep_eq (w h cpus : ℕ) (sl ir : Complex) (pixels : List ℕ) (i : ℕ)
    (hw : 0 < w) (hlen : pixels.length = w * h)
    (hi : (h / cpus + 1) * w * (i + 1) ≤ w * h) :
    mainChunkStep w h cpus sl ir pixels i =
      pixels.take ((h / cpus + 1) * w * i) ++
        renderFill ((pixels.drop ((h / cpus + 1) * w * i)).take ((h / cpus + 1) * w))
          (w, h / cpus + 1)
          (pixel_to_complex_point (w, h) (0, (h / cpus + 1) * i) sl ir)
          (pixel_to_complex_point (w, h) (w, (h / cpus + 1) * i + (h / cpus + 1)) sl ir) ++
        pixels.drop ((h / cpus + 1) * w * (i + 1)) := by
  have hmul : (h / cpus + 1) * w * (i + 1) = (h / cpus + 1) * w * i + (h / cpus + 1) * w := by
    ring
  have hchunk : ((pixels.drop ((h / cpus + 1) * w * i)).take ((h / cpus + 1) * w)).length
      = (h / cpus + 1) * w := by
    rw [List.length_take, List.length_drop, hlen]
    omega
  have hheight : (h / cpus + 1) * w / w = h / cpus + 1 := Nat.mul_div_cancel _ hw
  simp only [mainChunkStep]
  rw [hchunk, hheight]
  simp only [render]
  rw [if_pos (by rw [hchunk, Nat.mul_comm])]

theorem chunk_point_eq (w h rpc top c r : ℕ) (sl ir : Complex)
    (hw : w ≠ 0) (hh : h ≠ 0) (hrpc : rpc ≠ 0) :
    pixel_to_complex_point (w, rpc) (c, r)
        (pixel_to_complex_point (w, h) (0, top) sl ir)
        (pixel_to_complex_point (w, h) (w, top + rpc) sl ir) =
      pixel_to_complex_point (w, h) (c, top + r) sl ir := by
  have hw' : (w : ℚ) ≠ 0 := Nat.cast_ne_zero.mpr hw
  have hh' : (h : ℚ) ≠ 0 := Nat.cast_ne_zero.mpr hh
  have hrpc' : (rpc : ℚ) ≠ 0 := Nat.cast_ne_zero.mpr hrpc
  apply cext
  · simp only [pixel_to_complex_point]
    push_cast
    field_simp
    try ring
  · simp only [pixel_to_complex_point]
    push_cast
    field_simp
    try ring

theorem chunk_color_eq (w h rpc top c r : ℕ) (sl ir : Complex)
    (hw : w ≠ 0) (hh : h ≠ 0) (hrpc : rpc ≠ 0) :
    pixel_color (w, rpc)
        (pixel_to_complex_point (w, h) (0, top) sl ir)
        (pixel_to_complex_point (w, h) (w, top + rpc) sl ir) c r =
      pixel_color (w, h) sl ir c (top + r) := by
  unfold pixel_color
  rw [chunk_point_eq w h rpc top c r sl ir hw hh hrpc]

theorem getD_append3 (A B C : List ℕ) (j d : ℕ) :
    (A ++ B ++ C).getD j d =
      if j < A.length then A.getD j d
      else if j < A.length + B.length then B.getD (j - A.length) d
      else C.getD (j - A.length - B.length) d := by
  by_cases h1 : j < A.length
  · rw [if_pos h1, List.getD_append _ _ _ _ (by rw [List.length_append]; omega),
      List.getD_append _ _ _ _ h1]
  · rw [if_neg h1]
    by_cases h2 : j < A.length + B.length
    · rw [if_pos h2, List.getD_append _ _ _ _ (by rw [List.length_append]; omega),
        List.getD_append_right _ _ _ _ (by omega)]
    · rw [if_neg h2, List.getD_append_right _ _ _ _ (by rw [List.length_append]; omega),
        List.length_append, ← Nat.sub_sub]

theorem mainFold_length (w h cpus : ℕ) (sl ir : Complex) (hw : 0 < w) :
    ∀ n, (h / cpus + 1) * w * n ≤ w * h →
      ((List.range n).foldl (mainChunkStep w h cpus sl ir)
        (List.replicate (w * h) 0)).length = w * h := by
  intro n
  induction n with
  | zero =>
    intro _
    simp
  | succ n ih =>
    intro hn
    have hmul : (h / cpus + 1) * w * (n + 1) = (h / cpus + 1) * w * n + (h / cpus + 1) * w := by
      ring
    have hn2 : (h / cpus + 1) * w * n ≤ w * h := by omega
    rw [List.range_succ, List.foldl_append, List.foldl_cons, List.foldl_nil,
      mainChunkStep_eq w h cpus sl ir _ n hw (ih hn2) hn]
    simp only [List.length_append, List.length_take, List.length_drop,
      renderFill_length, ih hn2]
    omega

theorem mainFold_getD_high (w h cpus : ℕ) (sl ir : Complex) (hw : 0 < w) :
    ∀ n, (h / cpus + 1) * w * n ≤ w * h → ∀ j, (h / cpus + 1) * w * n ≤ j →
      ((List.range n).foldl (mainChunkStep w h cpus sl ir)
        (List.replicate (w * h) 0)).getD j 0 = 0 := by
  intro n
  induction n with
  | zero =>
    intro _ j _
    simp only [List.range_zero, List.foldl_nil]
    exact getD_replicate_zero (w * h) j
  | succ n ih =>
    intro hn j hj
    have hmul : (h / cpus + 1) * w * (n + 1) = (h / cpus + 1) * w * n + (h / cpus + 1) * w := by
      ring
    have hn2 : (h / cpus + 1) * w * n ≤ w * h := by omega
    have hprevlen := mainFold_length w h cpus sl ir hw n hn2
    rw [List.range_succ, List.foldl_append, List.foldl_cons, List.foldl_nil,
      mainChunkStep_eq w h cpus sl ir _ n hw hprevlen hn]
    have htakelen : (((List.range n).foldl (mainChunkStep w h cpus sl ir)
        (List.replicate (w * h) 0)).take ((h / cpus + 1) * w * n)).length
        = (h / cpus + 1) * w * n := by
      rw [List.length_take, hprevlen]
      omega
    have hchunklen : (renderFill ((((List.range n).foldl (mainChunkStep w h cpus sl ir)
        (List.replicate (w * h) 0)).drop ((h / cpus + 1) * w * n)).take ((h / cpus + 1) * w))
        (w, h / cpus + 1)
        (pixel_to_complex_point (w, h) (0, (h / cpus + 1) * n) sl ir)
        (pixel_to_complex_point (w, h) (w, (h / cpus + 1) * n + (h / cpus + 1)) sl ir)).length
        = (h / cpus + 1) * w := by
      rw [renderFill_length, List.length_take, List.length_drop, hprevlen]
      omega
    rw [getD_append3, htakelen, hchunklen, if_neg (by omega), if_neg (by omega), getD_drop]
    exact ih hn2 _ (by omega)

theorem mainFold_getD_low (w h cpus : ℕ) (sl ir : Complex) (hw : 0 < w) :
    ∀ n, (h / cpus + 1) * w * n ≤ w * h → ∀ j, j < (h / cpus + 1) * w * n →
      ((List.range n).foldl (mainChunkStep w h cpus sl ir)
        (List.replicate (w * h) 0)).getD j 0 =
        pixel_color (w, h) sl ir (j % w) (j / w) := by
  intro n
  induction n with
  | zero =>
    intro _ j hj
    exact absurd hj (by simp)
  | succ n ih =>
    intro hn j hj
    have hmul : (h / cpus + 1) * w * (n + 1) = (h / cpus + 1) * w * n + (h / cpus + 1) * w := by
      ring
    have hn2 : (h / cpus + 1) * w * n ≤ w * h := by omega
    have hprevlen := mainFold_length w h cpus sl ir hw n hn2
    rw [List.range_succ, List.foldl_append, List.foldl_cons, List.foldl_nil,
      mainChunkStep_eq w h cpus sl ir _ n hw hprevlen hn]
    have htakelen : (((List.range n).foldl (mainChunkStep w h cpus sl ir)
        (List.replicate (w * h) 0)).take ((h / cpus + 1) * w * n)).length
        = (h / cpus + 1) * w * n := by
      rw [List.length_take, hprevlen]
      omega
    have hchunklen : ((((List.range n).foldl (mainChunkStep w h cpus sl ir)
        (List.replicate (w * h) 0)).drop ((h / cpus + 1) * w * n)).take
        ((h / cpus + 1) * w)).length = (h / cpus + 1) * w := by
      rw [List.length_take, List.length_drop, hprevlen]
      omega
    have hBlen : (renderFill ((((List.range n).foldl (mainChunkStep w h cpus sl ir)
        (List.replicate (w * h) 0)).drop ((h / cpus + 1) * w * n)).take ((h / cpus + 1) * w))
        (w, h / cpus + 1)
        (pixel_to_complex_point (w, h) (0, (h / cpus + 1) * n) sl ir)
        (pixel_to_complex_point (w, h) (w, (h / cpus + 1) * n + (h / cpus + 1)) sl ir)).length
        = (h / cpus + 1) * w := by
      rw [renderFill_length, hchunklen]
    rcases Nat.lt_or_ge j ((h / cpus + 1) * w * n) with hjlo | hjhi
    · rw [getD_append3, htakelen, if_pos hjlo, getD_take _ _ _ _ hjlo]
      exact ih hn2 j hjlo
    · rw [getD_append3, htakelen, hBlen, if_neg (by omega), if_pos (by omega)]
      have hofflt : j - (h / cpus + 1) * w * n < (h / cpus + 1) * w := by omega
      have hoffsplit : j - (h / cpus + 1) * w * n =
          (j - (h / cpus + 1) * w * n) / w * w + (j - (h / cpus + 1) * w * n) % w := by
        conv_lhs => rw [← Nat.div_add_mod (j - (h / cpus + 1) * w * n) w]
        rw [Nat.mul_comm]
      have hrowlt : (j - (h / cpus + 1) * w * n) / w < h / cpus + 1 := by
        rw [Nat.div_lt_iff_lt_mul hw]
        exact hofflt
      have hcollt : (j - (h / cpus + 1) * w * n) % w < w := Nat.mod_lt _ hw
      have hres := renderFill_getD
        ((((List.range n).foldl (mainChunkStep w h cpus sl ir)
          (List.replicate (w * h) 0)).drop ((h / cpus + 1) * w * n)).take ((h / cpus + 1) * w))
        w (h / cpus + 1)
        (pixel_to_complex_point (w, h) (0, (h / cpus + 1) * n) sl ir)
        (pixel_to_complex_point (w, h) (w, (h / cpus + 1) * n + (h / cpus + 1)) sl ir)
        ((j - (h / cpus + 1) * w * n) / w) ((j - (h / cpus + 1) * w * n) % w) 0
        (le_of_eq (by rw [hchunklen])) hrowlt hcollt
      rw [← hoffsplit] at hres
      rw [hres]
      have hh0 : h ≠ 0 := by
        intro h0
        subst h0
        omega
      rw [chunk_color_eq w h (h / cpus + 1) ((h / cpus + 1) * n)
        ((j - (h / cpus + 1) * w * n) % w) ((j - (h / cpus + 1) * w * n) / w) sl ir
        hw.ne' hh0 (Nat.succ_ne_zero _)]
      have hjsplit : j = ((h / cpus + 1) * n + (j - (h / cpus + 1) * w * n) / w) * w +
          (j - (h / cpus + 1) * w * n) % w := by
        have hj2 : j = (h / cpus + 1) * w * n + (j - (h / cpus + 1) * w * n) := by omega
        conv_lhs => rw [hj2]
        conv_lhs => rw [hoffsplit]
        ring
      have hmod : j % w = (j - (h / cpus + 1) * w * n) % w := by
        conv_lhs => rw [hjsplit]
        rw [Nat.add_comm, Nat.add_mul_mod_self_right,
          Nat.mod_eq_of_lt hcollt]
      have hdiv : j / w = (h / cpus + 1) * n + (j - (h / cpus + 1) * w * n) / w := by
        conv_lhs => rw [hjsplit]
        rw [Nat.add_comm, Nat.add_mul_div_right _ _ hw, Nat.div_eq_of_lt hcollt,
          Nat.zero_add]
      rw [hmod, hdiv]

/-- C4: the driver uses `rows_per_chunk = height / workers + 1` and
`chunks_exact_mut` collects only whole chunks of exactly that many rows, so
the chunk count is `height / rows_per_chunk` and the trailing remainder of
`height % rows_per_chunk` rows at the bottom of the image is assigned to no
task: every byte of those rows keeps its initial value `0` in the final
buffer. -/
theorem main_unrendered_remainder (w h cpus : ℕ) (sl ir : Complex)
    (hw : 0 < w) (hcpus : 0 < cpus) :
    (w * h / ((h / cpus + 1) * w) = h / (h / cpus + 1)) ∧
    ∀ row col, row < h → col < w → h - h % (h / cpus + 1) ≤ row →
      (mainPixels w h cpus sl ir).getD (row * w + col) 0 = 0 := by
  have hN : w * h / ((h / cpus + 1) * w) = h / (h / cpus + 1) := by
    rw [Nat.mul_comm w h]
    exact Nat.mul_div_mul_right h (h / cpus + 1) hw
  refine ⟨hN, ?_⟩
  intro row col hr hc hrow
  have hdm := Nat.div_add_mod h (h / cpus + 1)
  have hmle := Nat.mul_div_le (w * h) ((h / cpus + 1) * w)
  have hq : (h / cpus + 1) * (h / (h / cpus + 1)) ≤ row := by omega
  have hj : (h / cpus + 1) * w * (w * h / ((h / cpus + 1) * w)) ≤ row * w + col := by
    calc (h / cpus + 1) * w * (w * h / ((h / cpus + 1) * w))
        = (h / cpus + 1) * (h / (h / cpus + 1)) * w := by rw [hN]; ring
    _ ≤ row * w := Nat.mul_le_mul_right w hq
    _ ≤ row * w + col := Nat.le_add_right _ _
  unfold mainPixels
  exact mainFold_getD_high w h cpus sl ir hw (w * h / ((h / cpus + 1) * w)) hmle
    (row * w + col) hj

/-- C4 witness: width 2, height 3, 2 workers — `rows_per_chunk = 2`, one
whole chunk of 2 rows is collected, and the remaining bottom row (row 2)
stays zero. -/
theorem main_unrendered_remainder_witness :
    (mainPixels 2 3 2 ⟨3, 3⟩ ⟨4, 2⟩).getD (2 * 2 + 0) 0 = 0 :=
  (main_unrendered_remainder 2 3 2 ⟨3, 3⟩ ⟨4, 2⟩ (by decide) (by decide)).2
    2 0 (by decide) (by decide) (by decide)

/-- C5: over every byte index covered by the whole chunks, the chunked
parallel partition of `main` — each chunk rendered as its own complete image
between corner points derived from the chunk's row offset and row span via
the Coordinate Mapper against the full extent — produces exactly the bytes
of a single one-pass render of the full image, for every worker count. -/
theorem main_partition_refines_render (w h cpus : ℕ) (sl ir : Complex)
    (hw : 0 < w) (hcpus : 0 < cpus) :
    ∀ idx, idx < (h / cpus + 1) * w * (w * h / ((h / cpus + 1) * w)) →
      (mainPixels w h cpus sl ir).getD idx 0 =
        (renderFill (List.replicate (w * h) 0) (w, h) sl ir).getD idx 0 := by
  intro idx hidx
  have hn : (h / cpus + 1) * w * (w * h / ((h / cpus + 1) * w)) ≤ w * h :=
    Nat.mul_div_le (w * h) ((h / cpus + 1) * w)
  have hwh : w * h = h * w := Nat.mul_comm w h
  have hidx2 : idx < w * h := lt_of_lt_of_le hidx hn
  have hsplit : idx = idx / w * w + idx % w := by
    conv_lhs => rw [← Nat.div_add_mod idx w]
    rw [Nat.mul_comm]
  unfold mainPixels
  rw [mainFold_getD_low w h cpus sl ir hw (w * h / ((h / cpus + 1) * w)) hn idx hidx]
  have hres := renderFill_getD (List.replicate (w * h) 0) w h sl ir (idx / w) (idx % w) 0
    (by rw [List.length_replicate]; omega)
    (by rw [Nat.div_lt_iff_lt_mul hw]; omega) (Nat.mod_lt idx hw)
  rw [← hsplit] at hres
  rw [hres]

/-- C5 witness: at width 2, height 3, 2 workers, byte 0 (covered by the
single whole chunk) agrees between the chunked driver and the one-pass
render. -/
theorem main_partition_refines_render_witness :
    (mainPixels 2 3 2 ⟨3, 3⟩ ⟨4, 2⟩).getD 0 0 =
      (renderFill (List.replicate (2 * 3) 0) (2, 3) ⟨3, 3⟩ ⟨4, 2⟩).getD 0 0 :=
  main_partition_refines_render 2 3 2 ⟨3, 3⟩ ⟨4, 2⟩ (by decide) (by decide) 0 (by decide)

end Fractal
